import Mathlib

/-!
Shallow embedding of the per-batch CDC reconciliation engine in
`src/main/python/spark_sql_merge_into_iceberg.py` (the `processBatch`
function of the Glue streaming job) and proofs of the specified
properties: deduplication by primary key on the maximal source
timestamp, classification into upsert and delete sets, projection onto
the destination table's column set, and the two MERGE transactions
against the Iceberg table, with an explicit trace of observable
effects (catalog query, lock acquisition, transactions, logging).
-/

/-- Operation kind of a CDC event.  The source carries the Debezium op
code in the `_op` column and only ever compares it against `'d'`;
`delete` models `'d'`, `create` and `update` model the non-delete
codes of the event model. -/
inductive Op
  | create
  | update
  | delete
  deriving DecidableEq, Repr

/-- One CDC change event as produced by lines 123-127 of the source
(`select(col("after.*"), col("op").alias("_op"), col("ts_ms").alias("_op_timestamp"))`):
the primary-key value (the configured `PRIMARY_KEY` column of the
after-image), the operation, the source timestamp in milliseconds
(`to_timestamp` of `ts_ms` is monotone in `ts_ms`, so ordering by the
converted value equals ordering by the raw milliseconds), and the
remaining after-image fields as name/value pairs. -/
structure Event where
  key : Int
  op : Op
  ts : Nat
  fields : List (String × Int)
  deriving DecidableEq, Repr

/-- Fold step of the window rank of lines 129-132: keep the event seen
so far unless the next one has a strictly larger timestamp, so the
first event in batch order wins timestamp ties (a deterministic
rendering of `row_number()` over `orderBy(desc("_op_timestamp"))`). -/
def laterOf (b x : Event) : Event :=
  if b.ts < x.ts then x else b

/-- The single retained event of one key group: the maximal-timestamp
event of the group, first-in-order on ties (`row_number() == 1`). -/
def bestOf : List Event → Option Event
  | [] => none
  | e :: rest => some (rest.foldl laterOf e)

/-- Deduplication, lines 129-132 of the source: partition the batch by
the primary key (`Window.partitionBy(PRIMARY_KEY)`) and keep, for
every distinct key, the event with the maximal `_op_timestamp`. -/
def dedupe (es : List Event) : List Event :=
  ((es.map Event.key).dedup).filterMap
    (fun k => bestOf (es.filter (fun x => x.key == k)))

/-- An event attains the maximal timestamp among all events of its key
in the batch. -/
def IsMaxFor (es : List Event) (x : Event) : Prop :=
  ∀ z ∈ es, z.key = x.key → z.ts ≤ x.ts

instance (es : List Event) (x : Event) : Decidable (IsMaxFor es x) := by
  unfold IsMaxFor
  infer_instance

/-- The check behind `select(_df.schema.names)` at line 133, rendered
per row: every required destination column has a corresponding source
field in the event's after-image. -/
def hasCols (schema : List String) (e : Event) : Bool :=
  schema.all (fun c => (e.fields.find? (fun p => p.1 == c)).isSome)

/-- Projection of one deduplicated event onto the destination table's
column set (line 133, `select(_df.schema.names)`): source fields
outside the schema are dropped, and a schema column with no
corresponding source field makes the projection fail (Spark's analyzer
rejects the `select`).  The primary-key value and the `_op` and
`_op_timestamp` columns ride along, as Spark resolves them for the
later filters. -/
def project (schema : List String) (e : Event) : Option Event :=
  if hasCols schema e then
    some { key := e.key, op := e.op, ts := e.ts,
           fields := schema.filterMap (fun c =>
             (e.fields.find? (fun p => p.1 == c)).map (fun p => (c, p.2))) }
  else none

/-- Projection of the whole deduplicated batch; fails when any row
fails (the frame-level `select` of line 133). -/
def projectAll (schema : List String) : List Event → Option (List Event)
  | [] => some []
  | e :: rest =>
    match project schema e, projectAll schema rest with
    | some x, some xs => some (x :: xs)
    | _, _ => none

/-- The upsert set, line 135: `deduped_cdc_df.filter(col("_op") != "d")`. -/
def upsertsOf (l : List Event) : List Event :=
  l.filter (fun e => !(e.op == Op.delete))

/-- The delete set, line 150: `deduped_cdc_df.filter(col("_op") == "d")`. -/
def deletesOf (l : List Event) : List Event :=
  l.filter (fun e => e.op == Op.delete)

/-- Destination Iceberg table: rows uniquely keyed by the primary key,
modelled as a map from the key value to the non-key column values of
the row when present. -/
abbrev DestTable := Int → Option (List (String × Int))

/-- Upsert merge, lines 141-145 of the source:
`WHEN MATCHED THEN UPDATE SET *` overwrites every column of the
matched row, `WHEN NOT MATCHED THEN INSERT *` inserts the source row;
matching is on the primary key alone. -/
def upsertMerge (t : DestTable) (ups : List Event) : DestTable :=
  fun k =>
    match ups.find? (fun s => s.key == k) with
    | some s => some s.fields
    | none => t k

/-- Delete merge, lines 156-159 of the source:
`WHEN MATCHED THEN DELETE`, matching on the primary key alone; source
keys with no matching table row simply match nothing. -/
def deleteMerge (t : DestTable) (dels : List Event) : DestTable :=
  fun k => if dels.any (fun s => s.key == k) then none else t k

/-- One full batch application to the table: upserts strictly before
deletes, as in the source (lines 136-148 before lines 150-162). -/
def applyBatch (t : DestTable) (ups dels : List Event) : DestTable :=
  deleteMerge (upsertMerge t ups) dels

/-- Opaque diagnostic payload of a merge failure raised by the
storage layer. -/
abbrev MergeErr := String

/-- Batch-level failures of `processBatch`: the missing-table
`RuntimeError` of line 114, the analyzer error of the schema
projection of line 133, and a re-raised merge exception. -/
inductive BatchError
  | tableNotFound
  | schemaMismatch
  | mergeError (e : MergeErr)
  deriving DecidableEq, Repr

/-- Observable effects of one `processBatch` call, in order: the
`SHOW TABLES` catalog query of line 109, the dedup/classify work,
commit-lock acquisition and release around each MERGE (the Iceberg
`DynamoLockManager` configured at lines 65-66), each MERGE
transaction, and error logging (`print` at line 113,
`traceback.print_exc()` at lines 147 and 161). -/
inductive Eff
  | queryCatalog
  | dedupeRun
  | lockAcquire
  | upsertTxn
  | deleteTxn
  | lockRelease
  | logError
  deriving DecidableEq, Repr

/-- Job configuration relevant to one batch: the destination table
name, the catalog's table listing as returned by `SHOW TABLES`
(line 110), and the destination table's non-key column names
(`_df.schema.names`, line 118). -/
structure Config where
  tableName : String
  tableList : List String
  schema : List String

/-- The upsert MERGE of lines 136-148: skipped when the upsert set is
empty (`count() > 0` guard), otherwise one transaction under the
commit lock; on failure the exception is logged
(`traceback.print_exc()`) and re-raised unchanged (`raise ex`).  The
oracle `uf` says whether the storage layer fails this transaction and
with which error. -/
def runUpsert (t : DestTable) (ups : List Event) (uf : Option MergeErr) :
    Except BatchError DestTable × List Eff :=
  if ups.isEmpty then (.ok t, [])
  else
    match uf with
    | some err =>
      (.error (.mergeError err), [.lockAcquire, .upsertTxn, .lockRelease, .logError])
    | none => (.ok (upsertMerge t ups), [.lockAcquire, .upsertTxn, .lockRelease])

/-- The delete MERGE of lines 150-162, mirroring `runUpsert`. -/
def runDelete (t : DestTable) (dels : List Event) (df : Option MergeErr) :
    Except BatchError DestTable × List Eff :=
  if dels.isEmpty then (.ok t, [])
  else
    match df with
    | some err =>
      (.error (.mergeError err), [.lockAcquire, .deleteTxn, .lockRelease, .logError])
    | none => (.ok (deleteMerge t dels), [.lockAcquire, .deleteTxn, .lockRelease])

/-- The whole of `processBatch`, lines 103-162 of the source: skip
empty batches (`data_frame.count() > 0`, line 104); query the catalog
listing once (`SHOW TABLES`, lines 109-110) and fail with the missing
table error when the configured table is absent (lines 111-114);
deduplicate and project (lines 120-133); apply the upsert MERGE then
the delete MERGE (lines 135-162), each skipped when its set is empty;
any failure aborts the batch at that point and propagates. -/
def mergePhase (table : DestTable) (uf df : Option MergeErr)
    (l : List Event) : Except BatchError DestTable × List Eff :=
  match runUpsert table (upsertsOf l) uf with
  | (.error e, t1) => (.error e, .queryCatalog :: .dedupeRun :: t1)
  | (.ok tab1, t1) =>
    match runDelete tab1 (deletesOf l) df with
    | (r2, t2) => (r2, .queryCatalog :: .dedupeRun :: (t1 ++ t2))

def processBatch (cfg : Config) (events : List Event) (table : DestTable)
    (uf df : Option MergeErr) : Except BatchError DestTable × List Eff :=
  if events.isEmpty then (.ok table, [])
  else if cfg.tableList.contains cfg.tableName then
    match projectAll cfg.schema (dedupe events) with
    | none => (.error .schemaMismatch, [.queryCatalog, .dedupeRun])
    | some l => mergePhase table uf df l
  else (.error .tableNotFound, [.queryCatalog, .logError])

/-- Example events of the specification (section 8): two updates of
key 1 and a delete of key 2. -/
def evU1 : Event := ⟨1, Op.update, 100, [("v", 0)]⟩

def evU2 : Event := ⟨1, Op.update, 200, [("v", 1)]⟩

def evD2 : Event := ⟨2, Op.delete, 150, [("v", 7)]⟩

/-- A delete event of key 2 agreeing with `evD2` on everything except
the value of the non-key field `v`. -/
def evD2b : Event := ⟨2, Op.delete, 150, [("v", 9)]⟩

/-- Two timestamp-tied update events of key 1 with different field
values. -/
def evT0 : Event := ⟨1, Op.update, 5, [("v", 0)]⟩

def evT1 : Event := ⟨1, Op.update, 5, [("v", 1)]⟩

/-- An upsert event whose after-image lacks the destination column
`v`. -/
def evBad : Event := ⟨3, Op.create, 10, [("w", 1)]⟩

/-- Example configuration: destination table `tbl` present in the
catalog listing, with the single non-key column `v`. -/
def cfgEx : Config := ⟨"tbl", ["tbl"], ["v"]⟩

/-- The empty destination table. -/
def tEx : DestTable := fun _ => none

/-- A one-row destination table holding only key 1. -/
def tEx1 : DestTable := fun k => if k = 1 then some [("v", 5)] else none

/-- Two events that agree on the key, the operation and the source
timestamp, agree on the whole after-image unless they are delete
events, and always agree on the after-image field names (a
`DataFrame` fixes the column set; only values of non-key fields of
delete events may differ). -/
def DeleteVariant (a b : Event) : Prop :=
  a.key = b.key ∧ a.op = b.op ∧ a.ts = b.ts
  ∧ (a.op ≠ Op.delete → a.fields = b.fields)
  ∧ a.fields.map Prod.fst = b.fields.map Prod.fst

theorem foldl_laterOf_mem (l : List Event) (b : Event) : l.foldl laterOf b ∈ b :: l := by
  induction l generalizing b with
  | nil => simp
  | cons x xs ih =>
    simp only [List.foldl_cons]
    rcases List.mem_cons.mp (ih (laterOf b x)) with h | h
    · rw [h]
      unfold laterOf
      split
      · exact List.mem_cons_of_mem _ (List.mem_cons_self _ _)
      · exact List.mem_cons_self _ _
    · exact List.mem_cons_of_mem _ (List.mem_cons_of_mem _ h)

theorem foldl_laterOf_le (l : List Event) (b : Event) :
    ∀ z ∈ b :: l, z.ts ≤ (l.foldl laterOf b).ts := by
  induction l generalizing b with
  | nil =>
    intro z hz
    rcases List.mem_cons.mp hz with h | h
    · rw [h]; simp
    · cases h
  | cons x xs ih =>
    intro z hz
    simp only [List.foldl_cons]
    have hb : b.ts ≤ (laterOf b x).ts := by
      unfold laterOf; split <;> omega
    have hx : x.ts ≤ (laterOf b x).ts := by
      unfold laterOf; split <;> omega
    have hhead : (laterOf b x).ts ≤ (xs.foldl laterOf (laterOf b x)).ts :=
      ih (laterOf b x) _ (List.mem_cons_self _ _)
    rcases List.mem_cons.mp hz with h | h
    · rw [h]; exact le_trans hb hhead
    · rcases List.mem_cons.mp h with h2 | h2
      · rw [h2]; exact le_trans hx hhead
      · exact ih (laterOf b x) z (List.mem_cons_of_mem _ h2)

theorem bestOf_mem {l : List Event} {x : Event} (h : bestOf l = some x) : x ∈ l := by
  cases l with
  | nil => cases h
  | cons e rest =>
    simp only [bestOf, Option.some.injEq] at h
    rw [← h]
    exact foldl_laterOf_mem rest e

theorem bestOf_le {l : List Event} {x : Event} (h : bestOf l = some x) :
    ∀ z ∈ l, z.ts ≤ x.ts := by
  cases l with
  | nil => intro z hz; cases hz
  | cons e rest =>
    simp only [bestOf, Option.some.injEq] at h
    rw [← h]
    exact foldl_laterOf_le rest e

theorem bestOf_isSome {l : List Event} (h : l ≠ []) : ∃ x, bestOf l = some x := by
  cases l with
  | nil => exact absurd rfl h
  | cons e rest => exact ⟨rest.foldl laterOf e, rfl⟩

theorem mem_dedupe_best {es : List Event} {x : Event} (h : x ∈ dedupe es) :
    bestOf (es.filter (fun z => z.key == x.key)) = some x := by
  rcases List.mem_filterMap.mp h with ⟨k, _, hbest⟩
  have hx : x ∈ es.filter (fun z => z.key == k) := bestOf_mem hbest
  have hk : x.key = k := by
    have := (List.mem_filter.mp hx).2
    exact eq_of_beq this
  rw [hk]
  exact hbest

theorem mem_dedupe_sub {es : List Event} {x : Event} (h : x ∈ dedupe es) : x ∈ es := by
  have hx := bestOf_mem (mem_dedupe_best h)
  exact (List.mem_filter.mp hx).1

theorem mem_dedupe_max {es : List Event} {x : Event} (h : x ∈ dedupe es) :
    IsMaxFor es x := by
  intro z hz hkey
  refine bestOf_le (mem_dedupe_best h) z ?_
  exact List.mem_filter.mpr ⟨hz, by simp [hkey]⟩

theorem dedupe_complete {es : List Event} {y : Event} (h : y ∈ es) :
    ∃ x ∈ dedupe es, x.key = y.key := by
  have hkey : y.key ∈ (es.map Event.key).dedup :=
    List.mem_dedup.mpr (List.mem_map.mpr ⟨y, h, rfl⟩)
  have hne : es.filter (fun z => z.key == y.key) ≠ [] := by
    intro hnil
    have : y ∈ es.filter (fun z => z.key == y.key) :=
      List.mem_filter.mpr ⟨h, by simp⟩
    rw [hnil] at this
    cases this
  rcases bestOf_isSome hne with ⟨x, hx⟩
  refine ⟨x, List.mem_filterMap.mpr ⟨y.key, hkey, hx⟩, ?_⟩
  have := (List.mem_filter.mp (bestOf_mem hx)).2
  exact eq_of_beq this

theorem filterMap_keyed_sublist (f : Int → Option Event)
    (hf : ∀ k x, f k = some x → x.key = k) :
    ∀ ks : List Int, List.Sublist ((ks.filterMap f).map Event.key) ks := by
  intro ks
  induction ks with
  | nil => simp
  | cons k ks ih =>
    rw [List.filterMap_cons]
    cases hfk : f k with
    | none => exact List.Sublist.cons _ ih
    | some x =>
      rw [List.map_cons, hf k x hfk]
      exact List.Sublist.cons₂ _ ih

theorem dedupe_keys_sublist (es : List Event) :
    List.Sublist ((dedupe es).map Event.key) ((es.map Event.key).dedup) := by
  refine filterMap_keyed_sublist _ ?_ _
  intro k x hx
  have := (List.mem_filter.mp (bestOf_mem hx)).2
  exact eq_of_beq this

theorem dedupe_keys_nodup (es : List Event) : ((dedupe es).map Event.key).Nodup :=
  (dedupe_keys_sublist es).nodup (List.nodup_dedup _)

theorem dedupe_length_le (es : List Event) : (dedupe es).length ≤ es.length := by
  have h1 : ((dedupe es).map Event.key).length ≤ ((es.map Event.key).dedup).length :=
    (dedupe_keys_sublist es).length_le
  have h2 : ((es.map Event.key).dedup).length ≤ (es.map Event.key).length :=
    (List.dedup_sublist _).length_le
  simpa using le_trans h1 h2

theorem project_parts {s : List String} {e x : Event} (h : project s e = some x) :
    x.key = e.key ∧ x.op = e.op ∧ x.ts = e.ts := by
  unfold project at h
  split at h
  · simp only [Option.some.injEq] at h
    rw [← h]
    exact ⟨rfl, rfl, rfl⟩
  · cases h

theorem project_eq_none {s : List String} {e : Event} (h : hasCols s e = false) :
    project s e = none := by
  unfold project
  rw [h]
  rfl

theorem filterMap_find_cols (fields : List (String × Int)) (s : List String)
    (hs : ∀ c ∈ s, (fields.find? (fun p => p.1 == c)).isSome) :
    (s.filterMap (fun c =>
      (fields.find? (fun p => p.1 == c)).map (fun p => (c, p.2)))).map Prod.fst = s := by
  induction s with
  | nil => rfl
  | cons c cs ih =>
    have hc := hs c (List.mem_cons_self _ _)
    rcases Option.isSome_iff_exists.mp hc with ⟨p, hp⟩
    simp only [List.filterMap_cons, hp, Option.map_some', List.map_cons]
    exact congrArg (c :: ·) (ih fun c2 h2 => hs c2 (List.mem_cons_of_mem _ h2))

theorem project_cols {s : List String} {e x : Event} (h : project s e = some x) :
    x.fields.map Prod.fst = s := by
  unfold project at h
  split at h
  case isTrue hc =>
    simp only [Option.some.injEq] at h
    rw [← h]
    refine filterMap_find_cols e.fields s ?_
    intro c hcs
    unfold hasCols at hc
    exact List.all_eq_true.mp hc c hcs
  case isFalse => cases h

theorem projectAll_forall {s : List String} :
    ∀ {l l' : List Event}, projectAll s l = some l' →
      List.Forall₂ (fun e x => project s e = some x) l l' := by
  intro l
  induction l with
  | nil =>
    intro l' h
    cases h
    exact List.Forall₂.nil
  | cons e rest ih =>
    intro l' h
    unfold projectAll at h
    cases hpe : project s e with
    | none => rw [hpe] at h; cases h
    | some x =>
      cases hpr : projectAll s rest with
      | none => rw [hpe, hpr] at h; cases h
      | some xs =>
        rw [hpe, hpr] at h
        cases h
        exact List.Forall₂.cons hpe (ih hpr)

theorem forall₂_mem_right {R : Event → Event → Prop} :
    ∀ {l l' : List Event}, List.Forall₂ R l l' → ∀ x ∈ l', ∃ e ∈ l, R e x := by
  intro l l' h
  induction h with
  | nil => intro x hx; cases hx
  | cons hr _ ih =>
    intro x hx
    rcases List.mem_cons.mp hx with h1 | h1
    · exact ⟨_, List.mem_cons_self _ _, h1 ▸ hr⟩
    · rcases ih x h1 with ⟨e, he, hre⟩
      exact ⟨e, List.mem_cons_of_mem _ he, hre⟩

theorem forall₂_mem_left {R : Event → Event → Prop} :
    ∀ {l l' : List Event}, List.Forall₂ R l l' → ∀ e ∈ l, ∃ x ∈ l', R e x := by
  intro l l' h
  induction h with
  | nil => intro e he; cases he
  | cons hr _ ih =>
    intro e he
    rcases List.mem_cons.mp he with h1 | h1
    · exact ⟨_, List.mem_cons_self _ _, h1 ▸ hr⟩
    · rcases ih e h1 with ⟨x, hx, hre⟩
      exact ⟨x, List.mem_cons_of_mem _ hx, hre⟩

theorem projectAll_length {s : List String} {l l' : List Event}
    (h : projectAll s l = some l') : l'.length = l.length :=
  (projectAll_forall h).length_eq.symm

theorem projectAll_keys {s : List String} {l l' : List Event}
    (h : projectAll s l = some l') :
    l'.map Event.key = l.map Event.key ∧ l'.map Event.op = l.map Event.op := by
  have hf := projectAll_forall h
  clear h
  induction hf with
  | nil => exact ⟨rfl, rfl⟩
  | cons hr _ ih =>
    rcases project_parts hr with ⟨hk, ho, _⟩
    simp only [List.map_cons, hk, ho]
    exact ⟨congrArg _ ih.1, congrArg _ ih.2⟩

theorem projectAll_none_of_mem {s : List String} {l : List Event} {e : Event}
    (he : e ∈ l) (hp : project s e = none) : projectAll s l = none := by
  induction l with
  | nil => cases he
  | cons a rest ih =>
    unfold projectAll
    rcases List.mem_cons.mp he with h1 | h1
    · rw [h1] at hp
      rw [hp]
    · rw [ih h1]
      cases project s a <;> rfl

theorem mem_dedupe_iff_of_uniq {es : List Event}
    (hu : ∀ x ∈ es, ∀ y ∈ es, x.key = y.key → IsMaxFor es x → IsMaxFor es y → x = y)
    {x : Event} : x ∈ dedupe es ↔ x ∈ es ∧ IsMaxFor es x := by
  constructor
  · intro h
    exact ⟨mem_dedupe_sub h, mem_dedupe_max h⟩
  · rintro ⟨hx, hmax⟩
    rcases dedupe_complete hx with ⟨y, hy, hkey⟩
    have hxy : x = y :=
      hu x hx y (mem_dedupe_sub hy) hkey.symm hmax (mem_dedupe_max hy)
    rw [hxy]
    exact hy

theorem bestOf_filter_append_self {es : List Event} {m : Event}
    (hbest : bestOf (es.filter (fun z => z.key == m.key)) = some m) :
    ∀ k, bestOf ((es ++ [m]).filter (fun z => z.key == k)) =
      bestOf (es.filter (fun z => z.key == k)) := by
  intro k
  rw [List.filter_append]
  by_cases hk : m.key = k
  · subst hk
    have hfm : [m].filter (fun z => z.key == m.key) = [m] := by simp
    rw [hfm]
    cases hl : es.filter (fun z => z.key == m.key) with
    | nil => rw [hl] at hbest; cases hbest
    | cons e rest =>
      rw [hl] at hbest
      simp only [bestOf, Option.some.injEq] at hbest
      simp only [List.cons_append, bestOf, List.foldl_append, List.foldl_cons,
        List.foldl_nil, hbest, Option.some.injEq]
      unfold laterOf
      simp
  · have hfm : [m].filter (fun z => z.key == k) = [] := by
      simp only [List.filter_cons, List.filter_nil]
      have hb : (Event.key m == k) = false := beq_eq_false_iff_ne.mpr hk
      rw [hb]
      simp
    rw [hfm, List.append_nil]

theorem dedupe_append_retained {es : List Event} {m : Event} (hm : m ∈ dedupe es) :
    ∀ x, x ∈ dedupe (es ++ [m]) ↔ x ∈ dedupe es := by
  intro x
  have hbest := mem_dedupe_best hm
  have hmem : m ∈ es := mem_dedupe_sub hm
  have hkeys : ∀ k : Int, k ∈ (es ++ [m]).map Event.key ↔ k ∈ es.map Event.key := by
    intro k
    simp only [List.map_append, List.mem_append, List.map_cons, List.map_nil,
      List.mem_singleton]
    constructor
    · rintro (h | h)
      · exact h
      · rw [h]; exact List.mem_map.mpr ⟨m, hmem, rfl⟩
    · exact Or.inl
  unfold dedupe
  constructor
  · intro hx
    rcases List.mem_filterMap.mp hx with ⟨k, hk, hb⟩
    rw [bestOf_filter_append_self hbest k] at hb
    refine List.mem_filterMap.mpr ⟨k, ?_, hb⟩
    exact List.mem_dedup.mpr ((hkeys k).mp (List.mem_dedup.mp hk))
  · intro hx
    rcases List.mem_filterMap.mp hx with ⟨k, hk, hb⟩
    rw [← bestOf_filter_append_self hbest k] at hb
    refine List.mem_filterMap.mpr ⟨k, ?_, hb⟩
    exact List.mem_dedup.mpr ((hkeys k).mpr (List.mem_dedup.mp hk))

theorem length_filter_split (p : Event → Bool) (l : List Event) :
    (l.filter (fun e => !(p e))).length + (l.filter p).length = l.length := by
  induction l with
  | nil => rfl
  | cons e rest ih =>
    cases hp : p e
    case false =>
      have h1 : (e :: rest).filter (fun x => !(p x)) = e :: rest.filter (fun x => !(p x)) := by
        rw [List.filter_cons, hp]
        rfl
      have h2 : (e :: rest).filter p = rest.filter p := by
        rw [List.filter_cons, hp]
        rfl
      rw [h1, h2, List.length_cons, List.length_cons]
      omega
    case true =>
      have h1 : (e :: rest).filter (fun x => !(p x)) = rest.filter (fun x => !(p x)) := by
        rw [List.filter_cons, hp]
        rfl
      have h2 : (e :: rest).filter p = e :: rest.filter p := by
        rw [List.filter_cons, hp]
        rfl
      rw [h1, h2, List.length_cons, List.length_cons]
      omega

theorem runUpsert_counts (t : DestTable) (ups : List Event) (uf : Option MergeErr) :
    (runUpsert t ups uf).2.count Eff.lockAcquire = (runUpsert t ups uf).2.count Eff.upsertTxn
    ∧ (runUpsert t ups uf).2.count Eff.deleteTxn = 0
    ∧ (runUpsert t ups uf).2.count Eff.queryCatalog = 0
    ∧ (runUpsert t ups uf).2.count Eff.dedupeRun = 0 := by
  unfold runUpsert
  split
  · exact ⟨rfl, rfl, rfl, rfl⟩
  · cases uf <;> exact ⟨rfl, rfl, rfl, rfl⟩

theorem runDelete_counts (t : DestTable) (dels : List Event) (df : Option MergeErr) :
    (runDelete t dels df).2.count Eff.lockAcquire = (runDelete t dels df).2.count Eff.deleteTxn
    ∧ (runDelete t dels df).2.count Eff.upsertTxn = 0
    ∧ (runDelete t dels df).2.count Eff.queryCatalog = 0
    ∧ (runDelete t dels df).2.count Eff.dedupeRun = 0 := by
  unfold runDelete
  split
  · exact ⟨rfl, rfl, rfl, rfl⟩
  · cases df <;> exact ⟨rfl, rfl, rfl, rfl⟩

theorem runUpsert_no_deleteTxn (t : DestTable) (ups : List Event) (uf : Option MergeErr) :
    Eff.deleteTxn ∉ (runUpsert t ups uf).2 :=
  List.count_eq_zero.mp (runUpsert_counts t ups uf).2.1

theorem runDelete_no_upsertTxn (t : DestTable) (dels : List Event) (df : Option MergeErr) :
    Eff.upsertTxn ∉ (runDelete t dels df).2 :=
  List.count_eq_zero.mp (runDelete_counts t dels df).2.1

theorem processBatch_cases (cfg : Config) (es : List Event) (t : DestTable)
    (uf df : Option MergeErr) :
    (es.isEmpty = true ∧ processBatch cfg es t uf df = (.ok t, []))
    ∨ processBatch cfg es t uf df = (.error .tableNotFound, [.queryCatalog, .logError])
    ∨ (projectAll cfg.schema (dedupe es) = none
        ∧ processBatch cfg es t uf df = (.error .schemaMismatch, [.queryCatalog, .dedupeRun]))
    ∨ (∃ l e, projectAll cfg.schema (dedupe es) = some l
        ∧ (runUpsert t (upsertsOf l) uf).1 = .error e
        ∧ processBatch cfg es t uf df =
            (.error e, .queryCatalog :: .dedupeRun :: (runUpsert t (upsertsOf l) uf).2))
    ∨ (∃ l tb, projectAll cfg.schema (dedupe es) = some l
        ∧ (runUpsert t (upsertsOf l) uf).1 = .ok tb
        ∧ processBatch cfg es t uf df =
            ((runDelete tb (deletesOf l) df).1,
              .queryCatalog :: .dedupeRun ::
                ((runUpsert t (upsertsOf l) uf).2 ++ (runDelete tb (deletesOf l) df).2))) := by
  unfold processBatch
  by_cases h0 : es.isEmpty = true
  · exact Or.inl ⟨h0, by rw [if_pos h0]⟩
  · rw [if_neg h0]
    by_cases h1 : cfg.tableList.contains cfg.tableName = true
    · rw [if_pos h1]
      cases hl : projectAll cfg.schema (dedupe es) with
      | none => exact Or.inr (Or.inr (Or.inl ⟨rfl, rfl⟩))
      | some l =>
        rcases hru : runUpsert t (upsertsOf l) uf with ⟨r1, t1⟩
        cases r1 with
        | error e =>
          refine Or.inr (Or.inr (Or.inr (Or.inl ⟨l, e, rfl, ?_, ?_⟩)))
          · rw [hru]
          · show mergePhase t uf df l = _
            unfold mergePhase
            rw [hru]
        | ok tb =>
          refine Or.inr (Or.inr (Or.inr (Or.inr ⟨l, tb, rfl, ?_, ?_⟩)))
          · rw [hru]
          · show mergePhase t uf df l = _
            unfold mergePhase
            rw [hru]
    · rw [if_neg h1]
      exact Or.inr (Or.inl rfl)


/-- C1: for every finite input sequence of change events, `dedupe`
returns at most one event per distinct key (its key list has no
duplicates); every retained event is an event of the input batch
attaining the maximal source timestamp among all events of its key in
the batch; the output size is at most the input size; and the empty
input yields the empty output. -/
theorem claim1_dedupe_correct (es : List Event) :
    ((dedupe es).map Event.key).Nodup
    ∧ (∀ x ∈ dedupe es, x ∈ es ∧ IsMaxFor es x)
    ∧ (dedupe es).length ≤ es.length
    ∧ dedupe ([] : List Event) = [] :=
  ⟨dedupe_keys_nodup es,
   fun _ hx => ⟨mem_dedupe_sub hx, mem_dedupe_max hx⟩,
   dedupe_length_le es,
   rfl⟩

/-- Witness for C1 at the specification's section 8 example batch. -/
theorem claim1_witness :
    evU2 ∈ [evU1, evU2, evD2] ∧ evU1.ts ≤ evU2.ts
    ∧ (dedupe [evU1, evU2, evD2]).length ≤ 3 := by
  have h := claim1_dedupe_correct [evU1, evU2, evD2]
  have h2 := h.2.1 evU2 (by decide)
  exact ⟨h2.1, h2.2 evU1 (by decide) (by decide), h.2.2.1⟩

/-- C2: re-applying the same upsert set and delete set to the
destination table is idempotent: applying the upsert merge twice
equals applying it once (each matched row is fully overwritten, each
absent row inserted, so the second pass changes nothing); deleting
keys with no matching table row is a no-op and never an error (both
when all delete keys are absent and row-by-row: absent-key delete rows
contribute nothing); hence re-running a whole batch — also after a
partial application in which only the upserts committed — reaches the
same final table state. -/
theorem claim2_merge_idempotent (t : DestTable) (ups dels : List Event) :
    upsertMerge (upsertMerge t ups) ups = upsertMerge t ups
    ∧ ((∀ d ∈ dels, t d.key = none) → deleteMerge t dels = t)
    ∧ deleteMerge t dels = deleteMerge t (dels.filter (fun d => (t d.key).isSome))
    ∧ applyBatch (applyBatch t ups dels) ups dels = applyBatch t ups dels
    ∧ applyBatch (upsertMerge t ups) ups dels = applyBatch t ups dels := by
  have hup : upsertMerge (upsertMerge t ups) ups = upsertMerge t ups := by
    funext k
    unfold upsertMerge
    cases ups.find? (fun s => s.key == k) <;> rfl
  refine ⟨hup, ?_, ?_, ?_, ?_⟩
  · intro h
    funext k
    unfold deleteMerge
    by_cases hany : dels.any (fun s => s.key == k) = true
    · rw [if_pos hany]
      rcases List.any_eq_true.mp hany with ⟨d, hd, hdk⟩
      have hk : d.key = k := eq_of_beq hdk
      rw [← hk, h d hd]
    · rw [if_neg hany]
  · funext k
    unfold deleteMerge
    by_cases h2 : (dels.filter (fun d => (t d.key).isSome)).any (fun s => s.key == k) = true
    · have h1 : dels.any (fun s => s.key == k) = true := by
        rcases List.any_eq_true.mp h2 with ⟨d, hd, hdk⟩
        exact List.any_eq_true.mpr ⟨d, (List.mem_filter.mp hd).1, hdk⟩
      rw [if_pos h1, if_pos h2]
    · rw [if_neg h2]
      by_cases h1 : dels.any (fun s => s.key == k) = true
      · rw [if_pos h1]
        rcases List.any_eq_true.mp h1 with ⟨d, hd, hdk⟩
        have hk : d.key = k := eq_of_beq hdk
        have hnone : t d.key = none := by
          by_cases hs : (t d.key).isSome = true
          · exact absurd (List.any_eq_true.mpr
              ⟨d, List.mem_filter.mpr ⟨hd, hs⟩, hdk⟩) h2
          · rcases ht : t d.key with _ | v
            · rfl
            · rw [ht] at hs
              exact absurd rfl hs
        rw [← hk, hnone]
      · rw [if_neg h1]
  · funext k
    unfold applyBatch deleteMerge upsertMerge
    dsimp only
    by_cases h1 : dels.any (fun s => s.key == k) = true
    · rw [if_pos h1, if_pos h1]
    · rw [if_neg h1, if_neg h1]
      cases ups.find? (fun s => s.key == k) <;> rfl
  · unfold applyBatch
    rw [hup]

/-- Witness for C2 at a concrete one-row table, upsert set and delete
set whose key is absent from the table. -/
theorem claim2_witness :
    upsertMerge (upsertMerge tEx1 [evU2]) [evU2] = upsertMerge tEx1 [evU2]
    ∧ deleteMerge tEx1 [evD2] = tEx1 := by
  have h := claim2_merge_idempotent tEx1 [evU2] [evD2]
  refine ⟨h.1, h.2.1 ?_⟩
  intro d hd
  rw [List.mem_singleton] at hd
  subst hd
  rfl

/-- C3 counterexample: the two timestamp-tied events `evT0` and `evT1`
of key 1 form a batch that is a permutation of its own reversal, yet
`dedupe` retains `evT0` for one order and not for the other, so the
retained event is not invariant under permutation of the input. -/
theorem claim3_counterexample :
    List.Perm [evT0, evT1] [evT1, evT0]
    ∧ evT0 ∈ dedupe [evT0, evT1]
    ∧ evT0 ∉ dedupe [evT1, evT0] :=
  ⟨List.Perm.swap evT1 evT0 [], by decide⟩

/-- C3 (amended): provided that for every key the maximal-timestamp
event of that key is unique in the batch (no two distinct events of a
key tie at the maximum — the condition the counterexample shows is
necessary), the set of events `dedupe` retains is invariant under any
permutation of the input sequence; and appending a duplicate copy of a
retained maximal-timestamp event never changes the retained events
(this part needs no tie condition). -/
theorem claim3_dedupe_invariance (es es2 : List Event) (m : Event)
    (hperm : List.Perm es es2)
    (huniq : ∀ x ∈ es, ∀ y ∈ es, x.key = y.key → IsMaxFor es x → IsMaxFor es y → x = y)
    (hm : m ∈ dedupe es) :
    (∀ x, x ∈ dedupe es ↔ x ∈ dedupe es2)
    ∧ (∀ x, x ∈ dedupe (es ++ [m]) ↔ x ∈ dedupe es) := by
  constructor
  · intro x
    have hmem : ∀ z : Event, z ∈ es ↔ z ∈ es2 := fun _ => hperm.mem_iff
    have hmax : ∀ z : Event, IsMaxFor es z ↔ IsMaxFor es2 z := by
      intro z
      constructor <;> intro h w hw hk
      · exact h w ((hmem w).mpr hw) hk
      · exact h w ((hmem w).mp hw) hk
    have huniq2 : ∀ a ∈ es2, ∀ b ∈ es2, a.key = b.key →
        IsMaxFor es2 a → IsMaxFor es2 b → a = b := by
      intro a ha b hb hk hma hmb
      exact huniq a ((hmem a).mpr ha) b ((hmem b).mpr hb) hk
        ((hmax a).mpr hma) ((hmax b).mpr hmb)
    rw [mem_dedupe_iff_of_uniq huniq, mem_dedupe_iff_of_uniq huniq2, hmem x, hmax x]
  · exact dedupe_append_retained hm

/-- Witness for C3 (amended) at the specification's section 8 example
batch, a rotation of it, and the retained event `evU2`. -/
theorem claim3_witness :
    (evU2 ∈ dedupe [evU1, evU2, evD2] ↔ evU2 ∈ dedupe [evU2, evD2, evU1])
    ∧ (evU2 ∈ dedupe ([evU1, evU2, evD2] ++ [evU2]) ↔ evU2 ∈ dedupe [evU1, evU2, evD2]) := by
  have h := claim3_dedupe_invariance [evU1, evU2, evD2] [evU2, evD2, evU1] evU2
    (by decide) (by decide) (by decide)
  exact ⟨h.1 evU2, h.2 evU2⟩

/-- C4: classification partitions every projected deduplicated batch
completely: the sizes of the upsert set and the delete set sum to the
size of the deduplicated batch, and no key occurs in both sets. -/
theorem claim4_partition (s : List String) (es l : List Event)
    (hp : projectAll s (dedupe es) = some l) :
    (upsertsOf l).length + (deletesOf l).length = (dedupe es).length
    ∧ ∀ x ∈ upsertsOf l, ∀ y ∈ deletesOf l, x.key ≠ y.key := by
  constructor
  · rw [← projectAll_length hp]
    exact length_filter_split _ l
  · intro x hx y hy hkey
    have hxl : x ∈ l := (List.mem_filter.mp hx).1
    have hyl : y ∈ l := (List.mem_filter.mp hy).1
    have hnodup : (l.map Event.key).Nodup := by
      rw [(projectAll_keys hp).1]
      exact dedupe_keys_nodup es
    have hxy : x = y := List.inj_on_of_nodup_map hnodup hxl hyl hkey
    have hxop := (List.mem_filter.mp hx).2
    have hyop := (List.mem_filter.mp hy).2
    rw [hxy] at hxop
    rw [hyop] at hxop
    exact absurd hxop (by decide)

/-- Witness for C4 at the projected deduplication of the
specification's section 8 example batch. -/
theorem claim4_witness :
    (upsertsOf [evU2, evD2]).length + (deletesOf [evU2, evD2]).length
      = (dedupe [evU1, evU2, evD2]).length
    ∧ evU2.key ≠ evD2.key := by
  have h := claim4_partition ["v"] [evU1, evU2, evD2] [evU2, evD2] (by decide)
  exact ⟨h.1, h.2 evU2 (by decide) evD2 (by decide)⟩

/-- C5: for every projected deduplicated batch, the upsert set
contains exactly the deduplicated events whose operation is Create or
Update: every member's operation is Create or Update, every member is
the projection of a deduplicated event onto the destination column
set (its field names are exactly the destination columns), and every
deduplicated Create or Update event appears in the set as its
projection. -/
theorem claim5_upsert_set (s : List String) (es l : List Event)
    (hp : projectAll s (dedupe es) = some l) :
    (∀ x ∈ upsertsOf l, (x.op = Op.create ∨ x.op = Op.update)
      ∧ x.fields.map Prod.fst = s
      ∧ ∃ e ∈ dedupe es, project s e = some x)
    ∧ (∀ e ∈ dedupe es, (e.op = Op.create ∨ e.op = Op.update) →
      ∃ x ∈ upsertsOf l, project s e = some x) := by
  have hf := projectAll_forall hp
  constructor
  · intro x hx
    have hxl : x ∈ l := (List.mem_filter.mp hx).1
    have hxop : (!(x.op == Op.delete)) = true := (List.mem_filter.mp hx).2
    have hop : x.op ≠ Op.delete := by
      intro hd
      rw [hd] at hxop
      exact absurd hxop (by decide)
    have hcu : x.op = Op.create ∨ x.op = Op.update := by
      cases hx2 : x.op
      · exact Or.inl rfl
      · exact Or.inr rfl
      · exact absurd hx2 hop
    rcases forall₂_mem_right hf x hxl with ⟨e, he, hpe⟩
    exact ⟨hcu, project_cols hpe, e, he, hpe⟩
  · intro e he hcu
    rcases forall₂_mem_left hf e he with ⟨x, hx, hpe⟩
    refine ⟨x, List.mem_filter.mpr ⟨hx, ?_⟩, hpe⟩
    have hop : x.op = e.op := (project_parts hpe).2.1
    rw [hop]
    rcases hcu with h | h <;> rw [h] <;> rfl

/-- Witness for C5 at the specification's section 8 example batch with
destination column set `v`. -/
theorem claim5_witness :
    (evU2.op = Op.create ∨ evU2.op = Op.update)
    ∧ evU2.fields.map Prod.fst = ["v"]
    ∧ ∃ x ∈ upsertsOf [evU2, evD2], project ["v"] evU2 = some x := by
  have h := claim5_upsert_set ["v"] [evU1, evU2, evD2] [evU2, evD2] (by decide)
  have h1 := h.1 evU2 (by decide)
  exact ⟨h1.1, h1.2.1, h.2 evU2 (by decide) h1.1⟩

/-- C6: if the upsert set of the batch is empty no upsert merge
transaction is opened, if the delete set is empty no delete merge
transaction is opened, every lock acquisition in the trace belongs to
an opened merge transaction (so a skipped merge also acquires no
lock), and an entirely empty input batch opens no transaction, has no
effects at all, and leaves the destination table unchanged. -/
theorem claim6_empty_skip (cfg : Config) (es : List Event) (t : DestTable)
    (uf df : Option MergeErr) :
    (∀ l, projectAll cfg.schema (dedupe es) = some l → upsertsOf l = [] →
      Eff.upsertTxn ∉ (processBatch cfg es t uf df).2)
    ∧ (∀ l, projectAll cfg.schema (dedupe es) = some l → deletesOf l = [] →
      Eff.deleteTxn ∉ (processBatch cfg es t uf df).2)
    ∧ (processBatch cfg es t uf df).2.count Eff.lockAcquire =
        (processBatch cfg es t uf df).2.count Eff.upsertTxn +
        (processBatch cfg es t uf df).2.count Eff.deleteTxn
    ∧ processBatch cfg [] t uf df = (.ok t, []) := by
  refine ⟨?_, ?_, ?_, rfl⟩
  · intro l hl hue
    rcases processBatch_cases cfg es t uf df with ⟨_, hpe⟩ | hpe | ⟨_, hpe⟩ |
      ⟨l2, e, hl2, hr1, hpe⟩ | ⟨l2, tb, hl2, hr1, hpe⟩
    · rw [hpe]
      exact List.not_mem_nil _
    · rw [hpe]
      decide
    · rw [hpe]
      decide
    · rw [hl] at hl2
      injection hl2 with hll
      subst hll
      rw [hue] at hr1
      simp [runUpsert] at hr1
    · rw [hl] at hl2
      injection hl2 with hll
      subst hll
      rw [hpe, hue]
      intro hmem
      rcases List.mem_cons.mp hmem with h | h
      · exact absurd h (by decide)
      rcases List.mem_cons.mp h with h2 | h2
      · exact absurd h2 (by decide)
      rcases List.mem_append.mp h2 with h3 | h3
      · exact absurd h3 (List.not_mem_nil _)
      · exact absurd h3 (runDelete_no_upsertTxn tb (deletesOf l) df)
  · intro l hl hde
    rcases processBatch_cases cfg es t uf df with ⟨_, hpe⟩ | hpe | ⟨_, hpe⟩ |
      ⟨l2, e, hl2, hr1, hpe⟩ | ⟨l2, tb, hl2, hr1, hpe⟩
    · rw [hpe]
      exact List.not_mem_nil _
    · rw [hpe]
      decide
    · rw [hpe]
      decide
    · rw [hpe]
      intro hmem
      rcases List.mem_cons.mp hmem with h | h
      · exact absurd h (by decide)
      rcases List.mem_cons.mp h with h2 | h2
      · exact absurd h2 (by decide)
      · exact absurd h2 (runUpsert_no_deleteTxn t (upsertsOf l2) uf)
    · rw [hl] at hl2
      injection hl2 with hll
      subst hll
      rw [hpe, hde]
      intro hmem
      rcases List.mem_cons.mp hmem with h | h
      · exact absurd h (by decide)
      rcases List.mem_cons.mp h with h2 | h2
      · exact absurd h2 (by decide)
      rcases List.mem_append.mp h2 with h3 | h3
      · exact absurd h3 (runUpsert_no_deleteTxn t (upsertsOf l) uf)
      · exact absurd h3 (List.not_mem_nil _)
  · rcases processBatch_cases cfg es t uf df with ⟨_, hpe⟩ | hpe | ⟨_, hpe⟩ |
      ⟨l2, e, hl2, hr1, hpe⟩ | ⟨l2, tb, hl2, hr1, hpe⟩
    · rw [hpe]
      rfl
    · rw [hpe]
      rfl
    · rw [hpe]
      rfl
    · rw [hpe]
      rw [List.count_cons_of_ne (by decide), List.count_cons_of_ne (by decide),
        List.count_cons_of_ne (by decide), List.count_cons_of_ne (by decide),
        List.count_cons_of_ne (by decide), List.count_cons_of_ne (by decide)]
      have hc := runUpsert_counts t (upsertsOf l2) uf
      omega
    · rw [hpe]
      rw [List.count_cons_of_ne (by decide), List.count_cons_of_ne (by decide),
        List.count_cons_of_ne (by decide), List.count_cons_of_ne (by decide),
        List.count_cons_of_ne (by decide), List.count_cons_of_ne (by decide),
        List.count_append, List.count_append, List.count_append]
      have hc1 := runUpsert_counts t (upsertsOf l2) uf
      have hc2 := runDelete_counts tb (deletesOf l2) df
      omega

/-- Witness for C6 at a singleton delete-only batch (empty upsert set)
and at the empty batch. -/
theorem claim6_witness :
    Eff.upsertTxn ∉ (processBatch cfgEx [evD2] tEx none none).2
    ∧ processBatch cfgEx ([] : List Event) tEx none none = (.ok tEx, []) := by
  have h := claim6_empty_skip cfgEx [evD2] tEx none none
  exact ⟨h.1 [evD2] (by decide) (by decide), h.2.2.2⟩

/-- C7 counterexample: for the empty batch the catalog listing is not
queried at all (`data_frame.count() > 0` guards the whole body), so
the table listing is not queried exactly once for every batch. -/
theorem claim7_counterexample :
    (processBatch cfgEx ([] : List Event) tEx none none).2.count Eff.queryCatalog ≠ 1 := by
  decide

/-- C7 (amended): for every nonempty batch, the destination catalog's
table listing is queried exactly once, before any deduplication,
classification or merge work (the query is the first observable
effect of the batch); and when the configured table name is absent
from the listing the batch fails fast with the table-not-found error,
performing no merge (its whole trace is the query and the error
log). -/
theorem claim7_table_guard (cfg : Config) (es : List Event) (t : DestTable)
    (uf df : Option MergeErr) (hne : es ≠ []) :
    (processBatch cfg es t uf df).2.head? = some Eff.queryCatalog
    ∧ (processBatch cfg es t uf df).2.count Eff.queryCatalog = 1
    ∧ (cfg.tableList.contains cfg.tableName = false →
        processBatch cfg es t uf df = (.error .tableNotFound, [.queryCatalog, .logError])) := by
  have h0 : es.isEmpty = false := by
    cases es with
    | nil => exact absurd rfl hne
    | cons a l => rfl
  have hguard : ∀ p : Prop, es.isEmpty = true → p := by
    intro p hfalse
    rw [h0] at hfalse
    exact absurd hfalse (by decide)
  refine ⟨?_, ?_, ?_⟩
  · rcases processBatch_cases cfg es t uf df with ⟨hemp, _⟩ | hpe | ⟨_, hpe⟩ |
      ⟨l2, e, hl2, hr1, hpe⟩ | ⟨l2, tb, hl2, hr1, hpe⟩
    · exact hguard _ hemp
    all_goals rw [hpe]; rfl
  · rcases processBatch_cases cfg es t uf df with ⟨hemp, _⟩ | hpe | ⟨_, hpe⟩ |
      ⟨l2, e, hl2, hr1, hpe⟩ | ⟨l2, tb, hl2, hr1, hpe⟩
    · exact hguard _ hemp
    · rw [hpe]
      rfl
    · rw [hpe]
      rfl
    · rw [hpe]
      rw [List.count_cons_self, List.count_cons_of_ne (by decide)]
      have hc := runUpsert_counts t (upsertsOf l2) uf
      omega
    · rw [hpe]
      rw [List.count_cons_self, List.count_cons_of_ne (by decide), List.count_append]
      have hc1 := runUpsert_counts t (upsertsOf l2) uf
      have hc2 := runDelete_counts tb (deletesOf l2) df
      omega
  · intro hcf
    unfold processBatch
    have h0n : ¬(es.isEmpty = true) := by
      rw [h0]
      decide
    have hcfn : ¬(cfg.tableList.contains cfg.tableName = true) := by
      rw [hcf]
      decide
    rw [if_neg h0n, if_neg hcfn]

/-- Witness for C7 (amended) at a nonempty singleton batch. -/
theorem claim7_witness :
    (processBatch cfgEx [evU1] tEx none none).2.head? = some Eff.queryCatalog
    ∧ (processBatch cfgEx [evU1] tEx none none).2.count Eff.queryCatalog = 1 := by
  have h := claim7_table_guard cfgEx [evU1] tEx none none (by decide)
  exact ⟨h.1, h.2.1⟩

/-- C8: when a merge transaction fails, the failure is logged and
re-raised to the caller unchanged: a failing upsert merge makes the
whole batch return exactly the storage layer's error with a trace of
one upsert transaction (no retry), an error log, and no delete
transaction (the failure aborts the batch before it); a failing
delete merge likewise surfaces the storage layer's error unchanged,
with exactly one delete transaction, at most one upsert transaction
and an error log — no failure is swallowed. -/
theorem claim8_error_propagation (cfg : Config) (es l : List Event) (t : DestTable)
    (err : MergeErr) (df : Option MergeErr)
    (hne : es.isEmpty = false)
    (hc : cfg.tableList.contains cfg.tableName = true)
    (hp : projectAll cfg.schema (dedupe es) = some l) :
    ((upsertsOf l).isEmpty = false →
      processBatch cfg es t (some err) df
        = (.error (.mergeError err),
           [.queryCatalog, .dedupeRun, .lockAcquire, .upsertTxn, .lockRelease, .logError]))
    ∧ ((deletesOf l).isEmpty = false →
      (processBatch cfg es t none (some err)).1 = .error (.mergeError err)
      ∧ (processBatch cfg es t none (some err)).2.count Eff.deleteTxn = 1
      ∧ (processBatch cfg es t none (some err)).2.count Eff.upsertTxn ≤ 1
      ∧ Eff.logError ∈ (processBatch cfg es t none (some err)).2) := by
  have h0n : ¬(es.isEmpty = true) := by
    rw [hne]
    decide
  constructor
  · intro hu
    have hun : ¬((upsertsOf l).isEmpty = true) := by
      rw [hu]
      decide
    unfold processBatch
    rw [if_neg h0n, if_pos hc, hp]
    show mergePhase t (some err) df l = _
    unfold mergePhase runUpsert
    rw [if_neg hun]
  · intro hd
    have hdn : ¬((deletesOf l).isEmpty = true) := by
      rw [hd]
      decide
    have hbody : ∀ tb : DestTable,
        runDelete tb (deletesOf l) (some err)
          = (.error (.mergeError err),
             [.lockAcquire, .deleteTxn, .lockRelease, .logError]) := by
      intro tb
      unfold runDelete
      rw [if_neg hdn]
    by_cases hu : (upsertsOf l).isEmpty = true
    · have hpb : processBatch cfg es t none (some err)
          = (.error (.mergeError err),
             [.queryCatalog, .dedupeRun, .lockAcquire, .deleteTxn, .lockRelease,
              .logError]) := by
        unfold processBatch
        rw [if_neg h0n, if_pos hc, hp]
        show mergePhase t none (some err) l = _
        unfold mergePhase runUpsert
        rw [if_pos hu]
        dsimp only
        rw [hbody t]
        rfl
      rw [hpb]
      refine ⟨rfl, rfl, ?_, ?_⟩
      · show List.count Eff.upsertTxn [Eff.queryCatalog, Eff.dedupeRun, Eff.lockAcquire,
          Eff.deleteTxn, Eff.lockRelease, Eff.logError] ≤ 1
        decide
      · show Eff.logError ∈ [Eff.queryCatalog, Eff.dedupeRun, Eff.lockAcquire,
          Eff.deleteTxn, Eff.lockRelease, Eff.logError]
        decide
    · have hpb : processBatch cfg es t none (some err)
          = (.error (.mergeError err),
             [.queryCatalog, .dedupeRun, .lockAcquire, .upsertTxn, .lockRelease,
              .lockAcquire, .deleteTxn, .lockRelease, .logError]) := by
        unfold processBatch
        rw [if_neg h0n, if_pos hc, hp]
        show mergePhase t none (some err) l = _
        unfold mergePhase runUpsert
        rw [if_neg hu]
        dsimp only
        rw [hbody (upsertMerge t (upsertsOf l))]
        rfl
      rw [hpb]
      refine ⟨rfl, rfl, ?_, ?_⟩
      · show List.count Eff.upsertTxn [Eff.queryCatalog, Eff.dedupeRun, Eff.lockAcquire,
          Eff.upsertTxn, Eff.lockRelease, Eff.lockAcquire, Eff.deleteTxn,
          Eff.lockRelease, Eff.logError] ≤ 1
        decide
      · show Eff.logError ∈ [Eff.queryCatalog, Eff.dedupeRun, Eff.lockAcquire,
          Eff.upsertTxn, Eff.lockRelease, Eff.lockAcquire, Eff.deleteTxn,
          Eff.lockRelease, Eff.logError]
        decide

/-- Witness for C8: a failing upsert merge on the section 8 example
batch returns exactly the storage error with one transaction and an
error log. -/
theorem claim8_witness :
    processBatch cfgEx [evU1, evU2, evD2] tEx (some "boom") none
      = (.error (.mergeError "boom"),
         [.queryCatalog, .dedupeRun, .lockAcquire, .upsertTxn, .lockRelease,
          .logError]) := by
  have h := claim8_error_propagation cfgEx [evU1, evU2, evD2] [evU2, evD2] tEx "boom" none
    rfl rfl (by decide)
  exact h.1 rfl

/-- C9: a batch containing an upsert row for which some destination
column has no corresponding source field fails with the schema
mismatch error before any merge: the result is the error and the
trace contains no merge transaction and no lock acquisition. -/
theorem claim9_schema_mismatch (cfg : Config) (es : List Event) (t : DestTable)
    (uf df : Option MergeErr) (e : Event)
    (hne : es.isEmpty = false)
    (hc : cfg.tableList.contains cfg.tableName = true)
    (he : e ∈ dedupe es)
    (_hop : e.op ≠ Op.delete)
    (hmiss : hasCols cfg.schema e = false) :
    processBatch cfg es t uf df = (.error .schemaMismatch, [.queryCatalog, .dedupeRun]) := by
  have hp : projectAll cfg.schema (dedupe es) = none :=
    projectAll_none_of_mem he (project_eq_none hmiss)
  have h0n : ¬(es.isEmpty = true) := by
    rw [hne]
    decide
  unfold processBatch
  rw [if_neg h0n, if_pos hc, hp]

/-- Witness for C9 at a batch whose single upsert event lacks the
destination column `v`. -/
theorem claim9_witness :
    processBatch cfgEx [evBad] tEx none none
      = (.error .schemaMismatch, [.queryCatalog, .dedupeRun]) :=
  claim9_schema_mismatch cfgEx [evBad] tEx none none evBad rfl rfl (by decide)
    (by decide) rfl

theorem dv_eq_of_not_delete {a b : Event} (h : DeleteVariant a b)
    (hop : a.op ≠ Op.delete) : a = b := by
  rcases h with ⟨hk, ho, ht, hf, _⟩
  have hfe := hf hop
  cases a
  cases b
  simp_all

theorem forall₂_filter {R : Event → Event → Prop} {p : Event → Bool}
    (hp : ∀ a b, R a b → p a = p b) :
    ∀ {l l' : List Event}, List.Forall₂ R l l' →
      List.Forall₂ R (l.filter p) (l'.filter p) := by
  intro l l' h
  induction h with
  | nil => exact List.Forall₂.nil
  | @cons a b l1 l2 hr hrest ih =>
    rw [List.filter_cons, List.filter_cons, ← hp a b hr]
    cases hpa : p a
    · simpa using ih
    · simpa using List.Forall₂.cons hr ih

theorem forall₂_keys_eq {l l' : List Event} (h : List.Forall₂ DeleteVariant l l') :
    l.map Event.key = l'.map Event.key := by
  induction h with
  | nil => rfl
  | cons hr _ ih => simp only [List.map_cons, hr.1, ih]

theorem dv_laterOf {a b c d : Event} (hab : DeleteVariant a b)
    (hcd : DeleteVariant c d) : DeleteVariant (laterOf a c) (laterOf b d) := by
  unfold laterOf
  rw [hab.2.2.1, hcd.2.2.1]
  split <;> assumption

theorem dv_foldl {b b' : Event} {l l' : List Event} (hb : DeleteVariant b b')
    (h : List.Forall₂ DeleteVariant l l') :
    DeleteVariant (l.foldl laterOf b) (l'.foldl laterOf b') := by
  induction h generalizing b b' with
  | nil => exact hb
  | cons hr _ ih => exact ih (dv_laterOf hb hr)

theorem dv_bestOf {l l' : List Event} (h : List.Forall₂ DeleteVariant l l') :
    (bestOf l = none ∧ bestOf l' = none)
    ∨ ∃ x y, bestOf l = some x ∧ bestOf l' = some y ∧ DeleteVariant x y := by
  cases h with
  | nil => exact Or.inl ⟨rfl, rfl⟩
  | cons hr hrest => exact Or.inr ⟨_, _, rfl, rfl, dv_foldl hr hrest⟩

theorem dv_dedupe {es es2 : List Event} (h : List.Forall₂ DeleteVariant es es2) :
    List.Forall₂ DeleteVariant (dedupe es) (dedupe es2) := by
  unfold dedupe
  rw [← forall₂_keys_eq h]
  generalize (es.map Event.key).dedup = ks
  induction ks with
  | nil => exact List.Forall₂.nil
  | cons k ks ih =>
    rw [List.filterMap_cons, List.filterMap_cons]
    have hff : List.Forall₂ DeleteVariant (es.filter (fun x => x.key == k))
        (es2.filter (fun x => x.key == k)) :=
      forall₂_filter (fun a b hab => by rw [hab.1]) h
    rcases dv_bestOf hff with ⟨h1, h2⟩ | ⟨x, y, h1, h2, hxy⟩
    · rw [h1, h2]
      exact ih
    · rw [h1, h2]
      exact List.Forall₂.cons hxy ih

theorem find_isSome_of_names {fa fb : List (String × Int)}
    (h : fa.map Prod.fst = fb.map Prod.fst) (c : String) :
    (fa.find? (fun p => p.1 == c)).isSome = (fb.find? (fun p => p.1 == c)).isSome := by
  induction fa generalizing fb with
  | nil =>
    cases fb with
    | nil => rfl
    | cons q qs => cases h
  | cons p ps ih =>
    cases fb with
    | nil => cases h
    | cons q qs =>
      simp only [List.map_cons, List.cons.injEq] at h
      rw [List.find?_cons, List.find?_cons, h.1]
      cases q.1 == c
      · exact ih h.2
      · rfl

theorem dv_hasCols {s : List String} {a b : Event} (h : DeleteVariant a b) :
    hasCols s a = hasCols s b := by
  unfold hasCols
  induction s with
  | nil => rfl
  | cons c cs ih =>
    rw [List.all_cons, List.all_cons, find_isSome_of_names h.2.2.2.2 c, ih]

theorem project_fields {s : List String} {e x : Event} (h : project s e = some x) :
    x.fields = s.filterMap (fun c =>
      (e.fields.find? (fun p => p.1 == c)).map (fun p => (c, p.2))) := by
  unfold project at h
  split at h
  · simp only [Option.some.injEq] at h
    rw [← h]
  · cases h

theorem project_isSome {s : List String} {e : Event} (h : hasCols s e = true) :
    (project s e).isSome = true := by
  unfold project
  rw [h]
  rfl

theorem dv_project {s : List String} {a b : Event} (h : DeleteVariant a b) :
    (project s a = none ∧ project s b = none)
    ∨ ∃ x y, project s a = some x ∧ project s b = some y ∧ DeleteVariant x y := by
  cases hc : hasCols s a with
  | false =>
    exact Or.inl ⟨project_eq_none hc, project_eq_none (by rw [← dv_hasCols h, hc])⟩
  | true =>
    have hcb : hasCols s b = true := by rw [← dv_hasCols h, hc]
    rcases Option.isSome_iff_exists.mp (project_isSome hc) with ⟨x, hx⟩
    rcases Option.isSome_iff_exists.mp (project_isSome hcb) with ⟨y, hy⟩
    refine Or.inr ⟨x, y, hx, hy, ?_⟩
    rcases project_parts hx with ⟨hxk, hxo, hxt⟩
    rcases project_parts hy with ⟨hyk, hyo, hyt⟩
    refine ⟨by rw [hxk, hyk]; exact h.1, by rw [hxo, hyo]; exact h.2.1,
      by rw [hxt, hyt]; exact h.2.2.1, ?_,
      by rw [project_cols hx, project_cols hy]⟩
    intro hop
    have hfe : a.fields = b.fields := h.2.2.2.1 (by rw [← hxo]; exact hop)
    rw [project_fields hx, project_fields hy, hfe]

theorem dv_projectAll {s : List String} :
    ∀ {l l' : List Event}, List.Forall₂ DeleteVariant l l' →
      (projectAll s l = none ∧ projectAll s l' = none)
      ∨ ∃ m m', projectAll s l = some m ∧ projectAll s l' = some m'
          ∧ List.Forall₂ DeleteVariant m m' := by
  intro l l' h
  induction h with
  | nil => exact Or.inr ⟨[], [], rfl, rfl, List.Forall₂.nil⟩
  | @cons a b l1 l2 hr hrest ih =>
    rcases dv_project hr with ⟨ha, hb⟩ | ⟨x, y, hx, hy, hxy⟩
    · left
      constructor
      · show projectAll s (a :: l1) = none
        unfold projectAll
        rw [ha]
      · show projectAll s (b :: l2) = none
        unfold projectAll
        rw [hb]
    · rcases ih with ⟨ha2, hb2⟩ | ⟨m, m', hm, hm', hmm⟩
      · left
        constructor
        · show projectAll s (a :: l1) = none
          unfold projectAll
          rw [hx, ha2]
        · show projectAll s (b :: l2) = none
          unfold projectAll
          rw [hy, hb2]
      · right
        refine ⟨x :: m, y :: m', ?_, ?_, List.Forall₂.cons hxy hmm⟩
        · show projectAll s (a :: l1) = some (x :: m)
          unfold projectAll
          rw [hx, hm]
        · show projectAll s (b :: l2) = some (y :: m')
          unfold projectAll
          rw [hy, hm']

theorem dv_upsertsOf {l l' : List Event} (h : List.Forall₂ DeleteVariant l l') :
    upsertsOf l = upsertsOf l' := by
  induction h with
  | nil => rfl
  | @cons a b l1 l2 hr hrest ih =>
    unfold upsertsOf at ih ⊢
    rw [List.filter_cons, List.filter_cons]
    have hop : b.op = a.op := hr.2.1.symm
    rw [hop]
    cases had : (a.op == Op.delete) with
    | false =>
      have hab : a = b := dv_eq_of_not_delete hr (by
        intro hd
        rw [hd] at had
        exact absurd had (by decide))
      rw [hab, ih]
    | true => exact ih

theorem dv_deleteMerge {t : DestTable} {d d' : List Event}
    (h : List.Forall₂ DeleteVariant d d') : deleteMerge t d = deleteMerge t d' := by
  funext k
  unfold deleteMerge
  have hany : d.any (fun s => s.key == k) = d'.any (fun s => s.key == k) := by
    induction h with
    | nil => rfl
    | cons hr _ ih => rw [List.any_cons, List.any_cons, hr.1, ih]
  rw [hany]

theorem dv_runDelete {t : DestTable} {d d' : List Event} (df : Option MergeErr)
    (h : List.Forall₂ DeleteVariant d d') : runDelete t d df = runDelete t d' df := by
  have hemp : d.isEmpty = d'.isEmpty := by
    cases h with
    | nil => rfl
    | cons _ _ => rfl
  unfold runDelete
  rw [← hemp]
  split
  · rfl
  · cases df with
    | some err => rfl
    | none => rw [dv_deleteMerge h]

/-- C10: the final result of a batch depends on delete-operation
events only through their key (and the timestamp and operation used
in deduplication): two runs whose input sequences agree everywhere
except in the non-key field values of delete events produce the same
result and the same effect trace, because the delete merge matches
rows on the primary key alone. -/
theorem claim10_delete_key_only (cfg : Config) (t : DestTable) (uf df : Option MergeErr)
    (es es2 : List Event) (h : List.Forall₂ DeleteVariant es es2) :
    processBatch cfg es t uf df = processBatch cfg es2 t uf df := by
  have hemp : es.isEmpty = es2.isEmpty := by
    cases h with
    | nil => rfl
    | cons _ _ => rfl
  unfold processBatch
  rw [← hemp]
  by_cases h0 : es.isEmpty = true
  · rw [if_pos h0, if_pos h0]
  · rw [if_neg h0, if_neg h0]
    by_cases h1 : cfg.tableList.contains cfg.tableName = true
    · rw [if_pos h1, if_pos h1]
      rcases dv_projectAll (dv_dedupe h) with ⟨ha, hb⟩ | ⟨m, m', hm, hm', hmm⟩
      · rw [ha, hb]
      · rw [hm, hm']
        show mergePhase t uf df m = mergePhase t uf df m'
        unfold mergePhase
        rw [dv_upsertsOf hmm]
        have hdd : ∀ tb : DestTable,
            runDelete tb (deletesOf m) df = runDelete tb (deletesOf m') df := by
          intro tb
          refine dv_runDelete df ?_
          exact forall₂_filter (fun a b hab => by rw [hab.2.1]) hmm
        rcases hru : runUpsert t (upsertsOf m') uf with ⟨r1, t1⟩
        cases r1 with
        | error e => rfl
        | ok tb =>
          dsimp only
          rw [hdd tb]
    · rw [if_neg h1, if_neg h1]

/-- Witness for C10: changing only the non-key field value of the
delete event `evD2` (to `evD2b`) leaves the whole batch outcome
unchanged. -/
theorem claim10_witness :
    processBatch cfgEx [evU1, evU2, evD2] tEx none none
      = processBatch cfgEx [evU1, evU2, evD2b] tEx none none := by
  refine claim10_delete_key_only cfgEx tEx none none _ _ ?_
  refine List.Forall₂.cons ⟨rfl, rfl, rfl, fun _ => rfl, rfl⟩ ?_
  refine List.Forall₂.cons ⟨rfl, rfl, rfl, fun _ => rfl, rfl⟩ ?_
  refine List.Forall₂.cons ⟨rfl, rfl, rfl, fun hctr => absurd rfl hctr, rfl⟩ ?_
  exact List.Forall₂.nil
